import Mathlib

/-! # Transform builders of `assignment02/main.cpp`

A shallow embedding of the four matrix builders of the rasterizer driver
(`get_view_matrix`, `get_model_matrix`, `get_rotation`, `get_projection_matrix`)
and of the driver's scene constants, followed by theorems about them.

Modelling conventions

* `float` / `double` values are idealised as real numbers: every arithmetic
  operation of the source is the exact operation on `ℝ`, and `sin`, `cos`,
  `tan`, `sqrt` are the real functions.  Rounding, overflow, underflow, NaN and
  infinities are outside the model.  The theorems are therefore the exact
  identities and inequalities behind the builders; whether a binary32 product
  underflows to zero (so that a divisor of the source vanishes) is a question
  about the float format that this model cannot express, and no theorem here
  answers it.
* `Eigen::Vector3f`, `Eigen::Vector4f` are functions `Fin 3 → ℝ`, `Fin 4 → ℝ`;
  `Eigen::Matrix3f`, `Eigen::Matrix4f` are `Matrix (Fin n) (Fin n) ℝ`; the comma
  initialiser `m << a, b, ...` fills row by row, which is what `!![...]` does.
* Local variables of a builder that the theorems speak about are separate
  definitions named `builder.local`.
-/

open Matrix

namespace Assignment02

/-! ## Data model -/

/-- Eigen's `Vector3f`: a vector of three reals. -/
abbrev Vector3f := Fin 3 → ℝ

/-- Eigen's `Vector4f`: a vector of four reals. -/
abbrev Vector4f := Fin 4 → ℝ

/-- Eigen's `Matrix3f`: a 3x3 real matrix. -/
abbrev Matrix3f := Matrix (Fin 3) (Fin 3) ℝ

/-- Eigen's `Matrix4f`: a 4x4 real matrix. -/
abbrev Matrix4f := Matrix (Fin 4) (Fin 4) ℝ

/-- Source line 8: `constexpr double MY_PI = 3.1415926;`. -/
noncomputable def MY_PI : ℝ := 3.1415926

/-- The homogeneous point `(p.x, p.y, p.z, 1)` of a 3-vector. -/
def to_vec4 (p : Vector3f) : Vector4f := ![p 0, p 1, p 2, 1]

/-! ## `get_view_matrix` (source lines 10-23) -/

/-- The local `translate` of `get_view_matrix`. -/
def get_view_matrix.translate (eye_pos : Vector3f) : Matrix4f :=
  !![1, 0, 0, -eye_pos 0;
     0, 1, 0, -eye_pos 1;
     0, 0, 1, -eye_pos 2;
     0, 0, 0, 1]

/-- The builder `get_view_matrix`: `view = Identity; view = translate * view; return view`. -/
def get_view_matrix (eye_pos : Vector3f) : Matrix4f :=
  get_view_matrix.translate eye_pos * (1 : Matrix4f)

/-! ## `get_model_matrix` (source lines 25-36) -/

/-- The local `radian` of `get_model_matrix`: `rotation_angle * MY_PI / 180.0`. -/
noncomputable def get_model_matrix.radian (rotation_angle : ℝ) : ℝ :=
  rotation_angle * MY_PI / 180.0

/-- The builder `get_model_matrix`: rotation about the z axis by `rotation_angle` degrees. -/
noncomputable def get_model_matrix (rotation_angle : ℝ) : Matrix4f :=
  let radian := get_model_matrix.radian rotation_angle
  let sinr := Real.sin radian
  let cosr := Real.cos radian
  !![cosr, -sinr, 0.0, 0.0;
     sinr, cosr, 0.0, 0.0;
     0.0, 0.0, 1.0, 0.0;
     0.0, 0.0, 0.0, 1.0]

/-! ## `get_rotation` (source lines 38-64) -/

/-- The local `norm` of `get_rotation`: `sqrt(x * x + y * y + z * z)`. -/
noncomputable def get_rotation.norm (axis : Vector3f) : ℝ :=
  let x := axis 0
  let y := axis 1
  let z := axis 2
  Real.sqrt (x * x + y * y + z * z)

/-- The local `n_axis` of `get_rotation`: the axis divided by its norm. -/
noncomputable def get_rotation.n_axis (axis : Vector3f) : Vector3f :=
  let norm := get_rotation.norm axis
  let n_x := axis 0 / norm
  let n_y := axis 1 / norm
  let n_z := axis 2 / norm
  ![n_x, n_y, n_z]

/-- The local `radian` of `get_rotation`: `angle * MY_PI / 180.0`. -/
noncomputable def get_rotation.radian (angle : ℝ) : ℝ :=
  angle * MY_PI / 180.0

/-- The local `N` of `get_rotation`: the cross-product matrix of `n_axis`. -/
noncomputable def get_rotation.N (axis : Vector3f) : Matrix3f :=
  let n_x := get_rotation.n_axis axis 0
  let n_y := get_rotation.n_axis axis 1
  let n_z := get_rotation.n_axis axis 2
  !![0.0, -n_z, n_y;
     n_z, 0.0, -n_x;
     -n_y, n_x, 0.0]

/-- The right-hand side of the assignment on source line 62:
`cosr * I + (1 - cosr) * n_axis * n_axis.transpose() + sinr * N`. -/
noncomputable def get_rotation.block (axis : Vector3f) (angle : ℝ) : Matrix3f :=
  let n_axis := get_rotation.n_axis axis
  let radian := get_rotation.radian angle
  let sinr := Real.sin radian
  let cosr := Real.cos radian
  let I : Matrix3f := 1
  cosr • I + Matrix.vecMulVec ((1 - cosr) • n_axis) n_axis + sinr • get_rotation.N axis

/-- Eigen's `model.block(0, 0, 3, 3) = B`: overwrite the upper-left 3x3 block of
`model` with `B`, keep every other entry. -/
def set_block3 (model : Matrix4f) (B : Matrix3f) : Matrix4f :=
  Matrix.of fun i j =>
    if h : i.val < 3 ∧ j.val < 3 then B ⟨i.val, h.1⟩ ⟨j.val, h.2⟩ else model i j

/-- The builder `get_rotation`: Rodrigues' formula written into the identity 4x4 matrix. -/
noncomputable def get_rotation (axis : Vector3f) (angle : ℝ) : Matrix4f :=
  set_block3 (1 : Matrix4f) (get_rotation.block axis angle)

/-! ## `get_projection_matrix` (source lines 66-97) -/

/-- The local `m_persp2ortho` of `get_projection_matrix`. -/
noncomputable def get_projection_matrix.m_persp2ortho (zNear zFar : ℝ) : Matrix4f :=
  !![zNear, 0.0, 0.0, 0.0;
     0.0, zNear, 0.0, 0.0;
     0.0, 0.0, zNear + zFar, -1.0 * zNear * zFar;
     0.0, 0.0, 1.0, 0.0]

/-- The local `radian`: `eye_fov * MY_PI / 180.0`. -/
noncomputable def get_projection_matrix.radian (eye_fov : ℝ) : ℝ :=
  eye_fov * MY_PI / 180.0

/-- The local `t`: `zNear * tan(radian / 2)`, as an exact real product.  The
binary32 product of the source can underflow to zero for tiny `eye_fov` and
`zNear`; that event is outside this model. -/
noncomputable def get_projection_matrix.t (eye_fov zNear : ℝ) : ℝ :=
  zNear * Real.tan (get_projection_matrix.radian eye_fov / 2)

/-- The local `r`: `t * aspect_ratio`, as an exact real product.  The binary32
product of the source can underflow to zero for a tiny `aspect_ratio`; that event
is outside this model. -/
noncomputable def get_projection_matrix.r (eye_fov aspect_ratio zNear : ℝ) : ℝ :=
  get_projection_matrix.t eye_fov zNear * aspect_ratio

/-- The local `b`: `-t`. -/
noncomputable def get_projection_matrix.b (eye_fov zNear : ℝ) : ℝ :=
  -get_projection_matrix.t eye_fov zNear

/-- The local `l`: `-r`. -/
noncomputable def get_projection_matrix.l (eye_fov aspect_ratio zNear : ℝ) : ℝ :=
  -get_projection_matrix.r eye_fov aspect_ratio zNear

/-- The local `m_ortho_trans` of `get_projection_matrix`. -/
noncomputable def get_projection_matrix.m_ortho_trans
    (eye_fov aspect_ratio zNear zFar : ℝ) : Matrix4f :=
  let t := get_projection_matrix.t eye_fov zNear
  let r := get_projection_matrix.r eye_fov aspect_ratio zNear
  let b := get_projection_matrix.b eye_fov zNear
  let l := get_projection_matrix.l eye_fov aspect_ratio zNear
  !![1.0, 0.0, 0.0, -(r + l) / 2;
     0.0, 1.0, 0.0, -(t + b) / 2;
     0.0, 0.0, 1.0, -(zNear + zFar) / 2;
     0.0, 0.0, 0.0, 1.0]

/-- The local `m_ortho_scale` of `get_projection_matrix`. -/
noncomputable def get_projection_matrix.m_ortho_scale
    (eye_fov aspect_ratio zNear zFar : ℝ) : Matrix4f :=
  let t := get_projection_matrix.t eye_fov zNear
  let r := get_projection_matrix.r eye_fov aspect_ratio zNear
  let b := get_projection_matrix.b eye_fov zNear
  let l := get_projection_matrix.l eye_fov aspect_ratio zNear
  !![2.0 / (r - l), 0.0, 0.0, 0.0;
     0.0, 2.0 / (t - b), 0.0, 0.0;
     0.0, 0.0, 2.0 / (zNear - zFar), 0.0;
     0.0, 0.0, 0.0, 1.0]

/-- The builder `get_projection_matrix`:
`projection = m_ortho_scale * m_ortho_trans * m_persp2ortho`. -/
noncomputable def get_projection_matrix (eye_fov aspect_ratio zNear zFar : ℝ) : Matrix4f :=
  get_projection_matrix.m_ortho_scale eye_fov aspect_ratio zNear zFar
    * get_projection_matrix.m_ortho_trans eye_fov aspect_ratio zNear zFar
    * get_projection_matrix.m_persp2ortho zNear zFar

/-! ## The driver's scene (source lines 113-124, 153-155) -/

/-- Source line 113: `eye_pos = {0,0,5}`. -/
def main.eye_pos : Vector3f := ![0, 0, 5]

/-- Source line 118: the first vertex of `pos`, `{2, 0, -2}`. -/
def main.pos0 : Vector3f := ![2, 0, -2]

/-- Source lines 155 and 173: `get_projection_matrix(45, 1, 0.1, 50)`. -/
noncomputable def main.projection : Matrix4f := get_projection_matrix 45 1 0.1 50

/-! ## Perspective divide -/

/-- Modelled from the spec: the rasterizer's perspective divide (the rasterizer
sources are not part of `src/`); section 4.3 step 3, "perspective-divide by
`v'.w` to map to normalized device coordinates". -/
noncomputable def perspective_divide (v : Vector4f) : Vector3f :=
  ![v 0 / v 3, v 1 / v 3, v 2 / v 3]

/-! ## Predicates used by the statements -/

/-- Membership of the view-space point `(x, y, z)` in the viewing frustum of a
camera looking down `-z`: `zNear ≤ -z ≤ zFar`, `|y| ≤ (-z)·T`, `|x| ≤ aspect·(-z)·T`
with `T = tan(fovY·3.1415926/360)`. -/
def in_frustum (fovY aspect zNear zFar x y z : ℝ) : Prop :=
  zNear ≤ -z ∧ -z ≤ zFar
    ∧ |y| ≤ (-z) * Real.tan (fovY * 3.1415926 / 360)
    ∧ |x| ≤ aspect * (-z) * Real.tan (fovY * 3.1415926 / 360)

/-- Membership of normalized device coordinates in the canonical cube `[-1, 1]³`. -/
def in_ndc_cube (p : Vector3f) : Prop :=
  ∀ i : Fin 3, -1 ≤ p i ∧ p i ≤ 1

/-! ## Theorems -/

/-- C1: for every eye position `e` and point `p`, `get_view_matrix e` applied to
`(p.x, p.y, p.z, 1)` yields `(p.x - e.x, p.y - e.y, p.z - e.z, 1)`, and it sends
the eye position itself to the origin `(0, 0, 0, 1)`. -/
theorem get_view_matrix_translates (e p : Vector3f) :
    get_view_matrix e *ᵥ to_vec4 p = ![p 0 - e 0, p 1 - e 1, p 2 - e 2, 1]
      ∧ get_view_matrix e *ᵥ to_vec4 e = ![0, 0, 0, 1] := by
  constructor
  · ext i
    fin_cases i <;>
      simp [get_view_matrix, get_view_matrix.translate, to_vec4, Matrix.mulVec,
        Matrix.dotProduct, Fin.sum_univ_four] <;> ring
  · ext i
    fin_cases i <;>
      simp [get_view_matrix, get_view_matrix.translate, to_vec4, Matrix.mulVec,
        Matrix.dotProduct, Fin.sum_univ_four]

/-! ### Facts about the locals of `get_rotation` -/

/-- The literal `0.0` is zero. -/
lemma lit_zero : (0.0 : ℝ) = 0 := by norm_num

/-- The literal `1.0` is one. -/
lemma lit_one : (1.0 : ℝ) = 1 := by norm_num

/-- The literal `2.0` is two. -/
lemma lit_two : (2.0 : ℝ) = 2 := by norm_num

/-- The square of `norm` is the sum of the squares of the components. -/
lemma get_rotation.norm_mul_self (a : Vector3f) :
    get_rotation.norm a * get_rotation.norm a = a 0 * a 0 + a 1 * a 1 + a 2 * a 2 := by
  unfold get_rotation.norm
  apply Real.mul_self_sqrt
  nlinarith [mul_self_nonneg (a 0), mul_self_nonneg (a 1), mul_self_nonneg (a 2)]

/-- A non-zero axis has a non-zero `norm`. -/
lemma get_rotation.norm_ne_zero (a : Vector3f) (ha : a ≠ 0) : get_rotation.norm a ≠ 0 := by
  intro h0
  have hsq := get_rotation.norm_mul_self a
  rw [h0] at hsq
  have p0 := mul_self_nonneg (a 0)
  have p1 := mul_self_nonneg (a 1)
  have p2 := mul_self_nonneg (a 2)
  have h0a : a 0 = 0 := mul_self_eq_zero.mp (by linarith)
  have h1a : a 1 = 0 := mul_self_eq_zero.mp (by linarith)
  have h2a : a 2 = 0 := mul_self_eq_zero.mp (by linarith)
  apply ha
  ext i
  fin_cases i <;> simp [h0a, h1a, h2a]

/-- Each component of a non-zero axis is the matching component of `n_axis`
times `norm`. -/
lemma get_rotation.n_axis_mul_norm (a : Vector3f) (ha : a ≠ 0) (i : Fin 3) :
    a i = get_rotation.n_axis a i * get_rotation.norm a := by
  have hn := get_rotation.norm_ne_zero a ha
  fin_cases i <;> simp [get_rotation.n_axis] <;> field_simp

/-- For a non-zero axis, `n_axis` has unit length. -/
lemma get_rotation.n_axis_unit (a : Vector3f) (ha : a ≠ 0) :
    get_rotation.n_axis a 0 * get_rotation.n_axis a 0
      + get_rotation.n_axis a 1 * get_rotation.n_axis a 1
      + get_rotation.n_axis a 2 * get_rotation.n_axis a 2 = 1 := by
  have hn := get_rotation.norm_ne_zero a ha
  have hsq := get_rotation.norm_mul_self a
  simp only [get_rotation.n_axis, Matrix.cons_val_zero, Matrix.cons_val_one, Matrix.head_cons,
    Matrix.cons_val_two, Matrix.tail_cons]
  field_simp
  linarith

/-- The entries of the upper-left block of `get_rotation` are those of `block`. -/
lemma get_rotation_submatrix (a : Vector3f) (θ : ℝ) :
    (get_rotation a θ).submatrix Fin.castSucc Fin.castSucc = get_rotation.block a θ := by
  ext i j
  fin_cases i <;> fin_cases j <;> simp [get_rotation, set_block3]

/-- The matrix returned by `get_rotation`, entry by entry. -/
lemma get_rotation_entries (a : Vector3f) (θ : ℝ) :
    get_rotation a θ =
      !![get_rotation.block a θ 0 0, get_rotation.block a θ 0 1, get_rotation.block a θ 0 2, 0;
         get_rotation.block a θ 1 0, get_rotation.block a θ 1 1, get_rotation.block a θ 1 2, 0;
         get_rotation.block a θ 2 0, get_rotation.block a θ 2 1, get_rotation.block a θ 2 2, 0;
         0, 0, 0, 1] := by
  ext i j
  fin_cases i <;> fin_cases j <;> simp [get_rotation, set_block3] <;>
    intro h <;> exact absurd h (by decide)

/-- Rodrigues' block fixes a non-zero axis. -/
lemma get_rotation.block_mulVec_axis (a : Vector3f) (θ : ℝ) (ha : a ≠ 0) :
    get_rotation.block a θ *ᵥ a = a := by
  have h0 := get_rotation.n_axis_mul_norm a ha 0
  have h1 := get_rotation.n_axis_mul_norm a ha 1
  have h2 := get_rotation.n_axis_mul_norm a ha 2
  have hu := get_rotation.n_axis_unit a ha
  ext i
  fin_cases i
  · simp [get_rotation.block, get_rotation.N, Matrix.mulVec, Matrix.dotProduct,
      Fin.sum_univ_three, Matrix.vecMulVec_apply, lit_zero]
    linear_combination
      ((Real.cos (get_rotation.radian θ) - 1)
        + (1 - Real.cos (get_rotation.radian θ))
          * get_rotation.n_axis a 0 * get_rotation.n_axis a 0) * h0
      + ((1 - Real.cos (get_rotation.radian θ))
          * get_rotation.n_axis a 0 * get_rotation.n_axis a 1
        - Real.sin (get_rotation.radian θ) * get_rotation.n_axis a 2) * h1
      + ((1 - Real.cos (get_rotation.radian θ))
          * get_rotation.n_axis a 0 * get_rotation.n_axis a 2
        + Real.sin (get_rotation.radian θ) * get_rotation.n_axis a 1) * h2
      + ((1 - Real.cos (get_rotation.radian θ))
          * get_rotation.n_axis a 0 * get_rotation.norm a) * hu
  · simp [get_rotation.block, get_rotation.N, Matrix.mulVec, Matrix.dotProduct,
      Fin.sum_univ_three, Matrix.vecMulVec_apply, lit_zero]
    linear_combination
      ((1 - Real.cos (get_rotation.radian θ))
          * get_rotation.n_axis a 1 * get_rotation.n_axis a 0
        + Real.sin (get_rotation.radian θ) * get_rotation.n_axis a 2) * h0
      + ((Real.cos (get_rotation.radian θ) - 1)
        + (1 - Real.cos (get_rotation.radian θ))
          * get_rotation.n_axis a 1 * get_rotation.n_axis a 1) * h1
      + ((1 - Real.cos (get_rotation.radian θ))
          * get_rotation.n_axis a 1 * get_rotation.n_axis a 2
        - Real.sin (get_rotation.radian θ) * get_rotation.n_axis a 0) * h2
      + ((1 - Real.cos (get_rotation.radian θ))
          * get_rotation.n_axis a 1 * get_rotation.norm a) * hu
  · simp [get_rotation.block, get_rotation.N, Matrix.mulVec, Matrix.dotProduct,
      Fin.sum_univ_three, Matrix.vecMulVec_apply, lit_zero]
    linear_combination
      ((1 - Real.cos (get_rotation.radian θ))
          * get_rotation.n_axis a 2 * get_rotation.n_axis a 0
        - Real.sin (get_rotation.radian θ) * get_rotation.n_axis a 1) * h0
      + ((1 - Real.cos (get_rotation.radian θ))
          * get_rotation.n_axis a 2 * get_rotation.n_axis a 1
        + Real.sin (get_rotation.radian θ) * get_rotation.n_axis a 0) * h1
      + ((Real.cos (get_rotation.radian θ) - 1)
        + (1 - Real.cos (get_rotation.radian θ))
          * get_rotation.n_axis a 2 * get_rotation.n_axis a 2) * h2
      + ((1 - Real.cos (get_rotation.radian θ))
          * get_rotation.n_axis a 2 * get_rotation.norm a) * hu

/-- C2: for every angle `θ` and every non-zero axis `a`, the upper-left 3x3 block
`R` of `get_rotation a θ` satisfies `R·a = a`, and the 4x4 matrix maps
`(a.x, a.y, a.z, 1)` to itself. -/
theorem get_rotation_fixes_axis (a : Vector3f) (θ : ℝ) (ha : a ≠ 0) :
    (get_rotation a θ).submatrix Fin.castSucc Fin.castSucc *ᵥ a = a
      ∧ get_rotation a θ *ᵥ to_vec4 a = to_vec4 a := by
  have hb := get_rotation.block_mulVec_axis a θ ha
  have hb0 := congrFun hb 0
  have hb1 := congrFun hb 1
  have hb2 := congrFun hb 2
  simp only [Matrix.mulVec, Matrix.dotProduct, Fin.sum_univ_three] at hb0 hb1 hb2
  constructor
  · rw [get_rotation_submatrix]
    exact hb
  · rw [get_rotation_entries]
    ext i
    fin_cases i <;>
      simp [Matrix.mulVec, Matrix.dotProduct, Fin.sum_univ_four, to_vec4] <;> assumption

/-- Witness for C2: the axis `(1, 2, 2)` turned by 30 degrees. -/
theorem get_rotation_fixes_axis_witness :
    (![1, 2, 2] : Vector3f) ≠ 0
      ∧ (get_rotation ![1, 2, 2] 30).submatrix Fin.castSucc Fin.castSucc *ᵥ ![1, 2, 2]
          = ![1, 2, 2]
      ∧ get_rotation ![1, 2, 2] 30 *ᵥ to_vec4 ![1, 2, 2] = to_vec4 ![1, 2, 2] :=
  have hne : (![1, 2, 2] : Vector3f) ≠ 0 := fun h => by
    have := congrFun h 0
    simp at this
  ⟨hne, get_rotation_fixes_axis ![1, 2, 2] 30 hne⟩

/-- C3: at angle 0 both rotation builders return the 4x4 identity matrix:
`get_model_matrix 0 = I`, and `get_rotation a 0 = I` for every non-zero axis `a`.
The hypothesis on the axis is the one of the claim; it keeps `n_axis` inside the
domain where the source's division is defined. -/
theorem rotation_builders_identity_at_zero (a : Vector3f) (_ha : a ≠ 0) :
    get_model_matrix 0 = (1 : Matrix4f) ∧ get_rotation a 0 = (1 : Matrix4f) := by
  constructor
  · ext i j
    fin_cases i <;> fin_cases j <;>
      simp [get_model_matrix, get_model_matrix.radian, lit_zero, lit_one] <;> rfl
  · rw [get_rotation_entries]
    ext i j
    fin_cases i <;> fin_cases j <;>
      simp [get_rotation.block, get_rotation.radian, get_rotation.N, Matrix.vecMulVec_apply,
        lit_zero] <;> rfl

/-- Witness for C3: the axis `(0, 3, 4)`. -/
theorem rotation_builders_identity_at_zero_witness :
    (![0, 3, 4] : Vector3f) ≠ 0
      ∧ get_model_matrix 0 = (1 : Matrix4f) ∧ get_rotation ![0, 3, 4] 0 = (1 : Matrix4f) :=
  have hne : (![0, 3, 4] : Vector3f) ≠ 0 := fun h => by
    have := congrFun h 1
    simp at this
  ⟨hne, rotation_builders_identity_at_zero ![0, 3, 4] hne⟩

/-- C7: for every angle `θ` in degrees, with `ρ = θ·3.1415926/180`,
`get_model_matrix θ` maps `(x, y, z, 1)` to
`(x·cos ρ - y·sin ρ, x·sin ρ + y·cos ρ, z, 1)`; its fourth column is `(0, 0, 0, 1)`. -/
theorem get_model_matrix_rotates_xy (θ x y z : ℝ) :
    get_model_matrix θ *ᵥ ![x, y, z, 1]
        = ![x * Real.cos (θ * 3.1415926 / 180) - y * Real.sin (θ * 3.1415926 / 180),
            x * Real.sin (θ * 3.1415926 / 180) + y * Real.cos (θ * 3.1415926 / 180),
            z, 1]
      ∧ (fun i => get_model_matrix θ i 3) = ![0, 0, 0, 1] := by
  have hρ : get_model_matrix.radian θ = θ * 3.1415926 / 180 := by
    norm_num [get_model_matrix.radian, MY_PI]
  constructor
  · ext i
    fin_cases i <;>
      simp [get_model_matrix, hρ, Matrix.mulVec, Matrix.dotProduct, Fin.sum_univ_four,
        lit_zero, lit_one] <;> ring
  · ext i
    fin_cases i <;> simp [get_model_matrix, lit_zero, lit_one]

/-! ### Facts about the locals of `get_projection_matrix` -/

/-- The argument `radian / 2` of the tangent is `eye_fov · 3.1415926 / 360`. -/
lemma get_projection_matrix.half_radian (fov : ℝ) :
    get_projection_matrix.radian fov / 2 = fov * 3.1415926 / 360 := by
  norm_num [get_projection_matrix.radian, MY_PI]
  ring

/-- For a field of view strictly between 0 and 180 degrees the argument of the
tangent lies strictly between 0 and `π / 2`. -/
lemma get_projection_matrix.half_radian_mem (fov : ℝ) (h0 : 0 < fov) (h180 : fov < 180) :
    0 < fov * 3.1415926 / 360 ∧ fov * 3.1415926 / 360 < Real.pi / 2 := by
  have hpi := Real.pi_gt_d20
  constructor
  · positivity
  · nlinarith

/-- The tangent of the half angle is positive for a field of view in `(0, 180)`. -/
lemma get_projection_matrix.tan_pos (fov : ℝ) (h0 : 0 < fov) (h180 : fov < 180) :
    0 < Real.tan (fov * 3.1415926 / 360) := by
  obtain ⟨h1, h2⟩ := get_projection_matrix.half_radian_mem fov h0 h180
  exact Real.tan_pos_of_pos_of_lt_pi_div_two h1 h2

/-- In exact arithmetic the half-height `t` is positive for admissible parameters
(a fact of the real-number model, not of the binary32 product). -/
lemma get_projection_matrix.t_pos (fov n : ℝ) (h0 : 0 < fov) (h180 : fov < 180)
    (hn : 0 < n) : 0 < get_projection_matrix.t fov n := by
  rw [get_projection_matrix.t, get_projection_matrix.half_radian]
  exact mul_pos hn (get_projection_matrix.tan_pos fov h0 h180)

/-- In exact arithmetic the half-width `r` is positive for admissible parameters
(a fact of the real-number model, not of the binary32 product). -/
lemma get_projection_matrix.r_pos (fov asp n : ℝ) (h0 : 0 < fov) (h180 : fov < 180)
    (hasp : 0 < asp) (hn : 0 < n) : 0 < get_projection_matrix.r fov asp n :=
  mul_pos (get_projection_matrix.t_pos fov n h0 h180 hn) hasp

/-- The matrix returned by `get_projection_matrix`, with the products of the three
factors multiplied out and nothing simplified away. -/
lemma get_projection_matrix_entries (fov asp n f : ℝ) :
    get_projection_matrix fov asp n f =
      !![2 / (get_projection_matrix.r fov asp n - get_projection_matrix.l fov asp n) * n, 0,
           2 / (get_projection_matrix.r fov asp n - get_projection_matrix.l fov asp n)
             * (-(get_projection_matrix.r fov asp n + get_projection_matrix.l fov asp n) / 2), 0;
         0, 2 / (get_projection_matrix.t fov n - get_projection_matrix.b fov n) * n,
           2 / (get_projection_matrix.t fov n - get_projection_matrix.b fov n)
             * (-(get_projection_matrix.t fov n + get_projection_matrix.b fov n) / 2), 0;
         0, 0, 2 / (n - f) * (n + f) + 2 / (n - f) * (-(n + f) / 2), 2 / (n - f) * (-(n * f));
         0, 0, 1, 0] := by
  ext i j
  fin_cases i <;> fin_cases j <;>
    simp [get_projection_matrix, get_projection_matrix.m_ortho_scale,
      get_projection_matrix.m_ortho_trans, get_projection_matrix.m_persp2ortho,
      Matrix.mul_apply, Fin.sum_univ_four, lit_zero, lit_one, lit_two, Matrix.vecHead,
      Matrix.vecTail]

/-- C8: with `T = tan(fovY·3.1415926/360)`, for `0 < fovY < 180`, `aspect > 0`,
`zNear > 0` and `zNear ≠ zFar`, the product returned by `get_projection_matrix`
is the closed-form matrix with rows `(1/(aspect·T), 0, 0, 0)`, `(0, 1/T, 0, 0)`,
`(0, 0, (zNear+zFar)/(zNear-zFar), -2·zNear·zFar/(zNear-zFar))`, `(0, 0, 1, 0)`;
the output `w` equals the input `z`, and the x/y scale does not depend on `zNear`. -/
theorem get_projection_matrix_closed_form (fovY aspect zNear zFar : ℝ)
    (h0 : 0 < fovY) (h180 : fovY < 180) (hasp : 0 < aspect) (hn : 0 < zNear)
    (hnf : zNear ≠ zFar) :
    get_projection_matrix fovY aspect zNear zFar =
        !![1 / (aspect * Real.tan (fovY * 3.1415926 / 360)), 0, 0, 0;
           0, 1 / Real.tan (fovY * 3.1415926 / 360), 0, 0;
           0, 0, (zNear + zFar) / (zNear - zFar), -2 * zNear * zFar / (zNear - zFar);
           0, 0, 1, 0]
      ∧ (∀ v : Vector4f, (get_projection_matrix fovY aspect zNear zFar *ᵥ v) 3 = v 2)
      ∧ (∀ zNear' zFar' : ℝ, 0 < zNear' →
          get_projection_matrix fovY aspect zNear' zFar' 0 0
              = get_projection_matrix fovY aspect zNear zFar 0 0
            ∧ get_projection_matrix fovY aspect zNear' zFar' 1 1
              = get_projection_matrix fovY aspect zNear zFar 1 1) := by
  have hT := get_projection_matrix.tan_pos fovY h0 h180
  have hT0 : Real.tan (fovY * 3.1415926 / 360) ≠ 0 := ne_of_gt hT
  have ha0 : aspect ≠ 0 := ne_of_gt hasp
  have hn0 : zNear ≠ 0 := ne_of_gt hn
  have hd : zNear - zFar ≠ 0 := sub_ne_zero.mpr hnf
  have hx : ∀ m : ℝ, 0 < m →
      2 / (get_projection_matrix.r fovY aspect m - get_projection_matrix.l fovY aspect m) * m
        = 1 / (aspect * Real.tan (fovY * 3.1415926 / 360)) := by
    intro m hm
    have hm0 : m ≠ 0 := ne_of_gt hm
    simp only [get_projection_matrix.r, get_projection_matrix.l, get_projection_matrix.t,
      get_projection_matrix.half_radian]
    field_simp
    ring
  have hy : ∀ m : ℝ, 0 < m →
      2 / (get_projection_matrix.t fovY m - get_projection_matrix.b fovY m) * m
        = 1 / Real.tan (fovY * 3.1415926 / 360) := by
    intro m hm
    have hm0 : m ≠ 0 := ne_of_gt hm
    simp only [get_projection_matrix.b, get_projection_matrix.t,
      get_projection_matrix.half_radian]
    field_simp
    ring
  refine ⟨?_, ?_, ?_⟩
  · rw [get_projection_matrix_entries, hx zNear hn, hy zNear hn]
    ext i j
    fin_cases i <;> fin_cases j <;>
      simp [get_projection_matrix.l, get_projection_matrix.b, Matrix.vecHead, Matrix.vecTail]
    · field_simp
      ring
    · ring
  · intro v
    rw [get_projection_matrix_entries]
    simp [Matrix.mulVec, Matrix.dotProduct, Fin.sum_univ_four]
  · intro zNear' zFar' hn'
    rw [get_projection_matrix_entries, get_projection_matrix_entries]
    simp [hx zNear hn, hy zNear hn, hx zNear' hn', hy zNear' hn']

/-- Witness for C8: the driver's parameters `(45, 1, 0.1, 50)`. -/
theorem get_projection_matrix_closed_form_witness :
    get_projection_matrix 45 1 0.1 50 =
        !![1 / (1 * Real.tan (45 * 3.1415926 / 360)), 0, 0, 0;
           0, 1 / Real.tan (45 * 3.1415926 / 360), 0, 0;
           0, 0, (0.1 + 50) / (0.1 - 50), -2 * 0.1 * 50 / (0.1 - 50);
           0, 0, 1, 0]
      ∧ (∀ v : Vector4f, (get_projection_matrix 45 1 0.1 50 *ᵥ v) 3 = v 2)
      ∧ (∀ zNear' zFar' : ℝ, 0 < zNear' →
          get_projection_matrix 45 1 zNear' zFar' 0 0 = get_projection_matrix 45 1 0.1 50 0 0
            ∧ get_projection_matrix 45 1 zNear' zFar' 1 1
              = get_projection_matrix 45 1 0.1 50 1 1) :=
  get_projection_matrix_closed_form 45 1 0.1 50 (by norm_num) (by norm_num) (by norm_num)
    (by norm_num) (by norm_num)

/-- The `z` and `w` components of a projected homogeneous point. -/
lemma get_projection_matrix_mulVec_zw (fov asp n f x y z w : ℝ) :
    (get_projection_matrix fov asp n f *ᵥ ![x, y, z, w]) 2
        = (2 / (n - f) * (n + f) + 2 / (n - f) * (-(n + f) / 2)) * z
          + 2 / (n - f) * (-(n * f)) * w
      ∧ (get_projection_matrix fov asp n f *ᵥ ![x, y, z, w]) 3 = z := by
  rw [get_projection_matrix_entries]
  constructor <;> simp [Matrix.mulVec, Matrix.dotProduct, Fin.sum_univ_four]

/-- Normalized device `z` of the point `(x, y, z, 1)` with `z ≠ 0`, for
`zNear ≠ zFar`: `(zNear + zFar)/(zNear - zFar) + 2·zNear·zFar/(zFar - zNear) · (1/z)`. -/
lemma get_projection_matrix_ndc_z (fov asp n f x y z : ℝ) (hnf : n ≠ f) (hz : z ≠ 0) :
    perspective_divide (get_projection_matrix fov asp n f *ᵥ ![x, y, z, 1]) 2
      = (n + f) / (n - f) + 2 * n * f / (f - n) * (1 / z) := by
  have hd : n - f ≠ 0 := sub_ne_zero.mpr hnf
  have hd2 : f - n ≠ 0 := sub_ne_zero.mpr (Ne.symm hnf)
  obtain ⟨h2, h3⟩ := get_projection_matrix_mulVec_zw fov asp n f x y z 1
  simp only [perspective_divide, Matrix.cons_val_two, Matrix.tail_cons, Matrix.head_cons]
  rw [h2, h3]
  field_simp
  ring

/-- C6: for `0 < zNear < zFar` and two view-space points in front of the camera
with `z1 < z2 < 0` (the second is closer to the eye), the normalized device `z` of
the closer point is strictly smaller than that of the farther point, whatever
their `x` and `y`. -/
theorem projection_depth_order_preserving (fovY aspect zNear zFar x1 y1 z1 x2 y2 z2 : ℝ)
    (hn : 0 < zNear) (hnf : zNear < zFar) (h12 : z1 < z2) (h2 : z2 < 0) :
    perspective_divide (get_projection_matrix fovY aspect zNear zFar *ᵥ ![x2, y2, z2, 1]) 2
      < perspective_divide (get_projection_matrix fovY aspect zNear zFar *ᵥ ![x1, y1, z1, 1]) 2 := by
  have h1 : z1 < 0 := lt_trans h12 h2
  rw [get_projection_matrix_ndc_z fovY aspect zNear zFar x2 y2 z2 (ne_of_lt hnf) (ne_of_lt h2),
    get_projection_matrix_ndc_z fovY aspect zNear zFar x1 y1 z1 (ne_of_lt hnf) (ne_of_lt h1)]
  have hk : 0 < 2 * zNear * zFar / (zFar - zNear) := by
    have hf : 0 < zFar := lt_trans hn hnf
    have hd : 0 < zFar - zNear := sub_pos.mpr hnf
    positivity
  have hinv : 1 / z2 < 1 / z1 := one_div_lt_one_div_of_neg_of_lt h2 h12
  have := mul_lt_mul_of_pos_left hinv hk
  linarith

/-- Witness for C6: the depths `-10 < -7 < 0` of the driver's two triangles seen
from the eye, with `zNear = 0.1`, `zFar = 50`. -/
theorem projection_depth_order_preserving_witness :
    perspective_divide (get_projection_matrix 45 1 0.1 50 *ᵥ ![2, 0, -7, 1]) 2
      < perspective_divide (get_projection_matrix 45 1 0.1 50 *ᵥ ![3.5, -1, -10, 1]) 2 :=
  projection_depth_order_preserving 45 1 0.1 50 3.5 (-1) (-10) 2 0 (-7)
    (by norm_num) (by norm_num) (by norm_num) (by norm_num)

/-- The image of `(x, y, z, 1)` under the orthographic part
`m_ortho_scale * m_ortho_trans`, for non-zero half-extents. -/
lemma ortho_part_mulVec (fov asp n f x y z : ℝ)
    (ht : get_projection_matrix.t fov n ≠ 0) (hr : get_projection_matrix.r fov asp n ≠ 0) :
    (get_projection_matrix.m_ortho_scale fov asp n f
        * get_projection_matrix.m_ortho_trans fov asp n f) *ᵥ ![x, y, z, 1]
      = ![x / get_projection_matrix.r fov asp n, y / get_projection_matrix.t fov n,
          2 / (n - f) * (z - (n + f) / 2), 1] := by
  ext i
  fin_cases i <;>
    simp [get_projection_matrix.m_ortho_scale, get_projection_matrix.m_ortho_trans,
      get_projection_matrix.l, get_projection_matrix.b, Matrix.mulVec, Matrix.dotProduct,
      Matrix.mul_apply, Fin.sum_univ_four, lit_zero, lit_one, lit_two, Matrix.vecHead,
      Matrix.vecTail]
  · rw [← two_mul]
    field_simp
    ring
  · rw [← two_mul]
    field_simp
    ring
  · ring

/-- C10: for `0 < fovY < 180`, `aspect > 0`, `0 < zNear < zFar`, the orthographic
part `m_ortho_scale · m_ortho_trans` of `get_projection_matrix` sends every point
`(x, y, z, 1)` of the box `[l,r]×[b,t]×[zNear,zFar]` to a point with all three
coordinates in `[-1, 1]` and `w = 1`, and sends the eight box corners to cube
corners (`r ↦ 1`, `l ↦ -1`, `t ↦ 1`, `b ↦ -1`, `zNear ↦ 1`, `zFar ↦ -1`). -/
theorem ortho_part_maps_box_into_cube (fovY aspect zNear zFar x y z : ℝ)
    (h0 : 0 < fovY) (h180 : fovY < 180) (hasp : 0 < aspect) (hn : 0 < zNear)
    (hnf : zNear < zFar)
    (hlx : get_projection_matrix.l fovY aspect zNear ≤ x)
    (hxr : x ≤ get_projection_matrix.r fovY aspect zNear)
    (hby : get_projection_matrix.b fovY zNear ≤ y)
    (hyt : y ≤ get_projection_matrix.t fovY zNear)
    (hnz : zNear ≤ z) (hzf : z ≤ zFar) :
    (∀ i : Fin 3,
        -1 ≤ ((get_projection_matrix.m_ortho_scale fovY aspect zNear zFar
                * get_projection_matrix.m_ortho_trans fovY aspect zNear zFar)
              *ᵥ ![x, y, z, 1]) i.castSucc
          ∧ ((get_projection_matrix.m_ortho_scale fovY aspect zNear zFar
                * get_projection_matrix.m_ortho_trans fovY aspect zNear zFar)
              *ᵥ ![x, y, z, 1]) i.castSucc ≤ 1)
      ∧ ((get_projection_matrix.m_ortho_scale fovY aspect zNear zFar
            * get_projection_matrix.m_ortho_trans fovY aspect zNear zFar)
          *ᵥ ![x, y, z, 1]) 3 = 1
      ∧ (∀ cx cy cz : Bool,
          (get_projection_matrix.m_ortho_scale fovY aspect zNear zFar
              * get_projection_matrix.m_ortho_trans fovY aspect zNear zFar)
            *ᵥ ![if cx then get_projection_matrix.r fovY aspect zNear
                  else get_projection_matrix.l fovY aspect zNear,
                 if cy then get_projection_matrix.t fovY zNear
                  else get_projection_matrix.b fovY zNear,
                 if cz then zNear else zFar, 1]
            = ![if cx then 1 else -1, if cy then 1 else -1, if cz then 1 else -1, 1]) := by
  have htpos := get_projection_matrix.t_pos fovY zNear h0 h180 hn
  have hrpos := get_projection_matrix.r_pos fovY aspect zNear h0 h180 hasp hn
  have hd : zNear - zFar < 0 := sub_neg.mpr hnf
  have hd0 : zNear - zFar ≠ 0 := ne_of_lt hd
  simp only [get_projection_matrix.l, get_projection_matrix.b] at hlx hby
  refine ⟨?_, ?_, ?_⟩
  · intro i
    rw [ortho_part_mulVec fovY aspect zNear zFar x y z (ne_of_gt htpos) (ne_of_gt hrpos)]
    fin_cases i
    · simp only [Fin.zero_eta, Fin.castSucc_zero, Matrix.cons_val_zero]
      rw [le_div_iff₀ hrpos, div_le_iff₀ hrpos]
      constructor <;> linarith
    · simp only [Fin.mk_one, Fin.castSucc_one, Matrix.cons_val_one, Matrix.head_cons]
      rw [le_div_iff₀ htpos, div_le_iff₀ htpos]
      constructor <;> linarith
    · have hz1 : 2 / (zNear - zFar) * (z - (zNear + zFar) / 2)
          = (zNear + zFar - 2 * z) / (zFar - zNear) := by
        have hd2 : zFar - zNear ≠ 0 := ne_of_gt (sub_pos.mpr hnf)
        field_simp
        ring
      have hpos : 0 < zFar - zNear := sub_pos.mpr hnf
      show -1 ≤ 2 / (zNear - zFar) * (z - (zNear + zFar) / 2)
        ∧ 2 / (zNear - zFar) * (z - (zNear + zFar) / 2) ≤ 1
      rw [hz1, le_div_iff₀ hpos, div_le_iff₀ hpos]
      constructor <;> linarith
  · rw [ortho_part_mulVec fovY aspect zNear zFar x y z (ne_of_gt htpos) (ne_of_gt hrpos)]
    rfl
  · intro cx cy cz
    rw [ortho_part_mulVec fovY aspect zNear zFar _ _ _ (ne_of_gt htpos) (ne_of_gt hrpos)]
    have hr0 := ne_of_gt hrpos
    have ht0 := ne_of_gt htpos
    ext i
    fin_cases i
    · cases cx <;> simp [get_projection_matrix.l, hr0, neg_div]
    · cases cy <;> simp [get_projection_matrix.b, ht0, neg_div]
    · cases cz <;> simp <;> field_simp <;> ring
    · rfl

/-- Witness for C10: the point `(0, 0, 1)` of the box for the driver's parameters
`(45, 1, 0.1, 50)`. -/
theorem ortho_part_maps_box_into_cube_witness :
    (∀ i : Fin 3,
        -1 ≤ ((get_projection_matrix.m_ortho_scale 45 1 0.1 50
                * get_projection_matrix.m_ortho_trans 45 1 0.1 50)
              *ᵥ ![0, 0, 1, 1]) i.castSucc
          ∧ ((get_projection_matrix.m_ortho_scale 45 1 0.1 50
                * get_projection_matrix.m_ortho_trans 45 1 0.1 50)
              *ᵥ ![0, 0, 1, 1]) i.castSucc ≤ 1)
      ∧ ((get_projection_matrix.m_ortho_scale 45 1 0.1 50
            * get_projection_matrix.m_ortho_trans 45 1 0.1 50)
          *ᵥ ![0, 0, 1, 1]) 3 = 1
      ∧ (∀ cx cy cz : Bool,
          (get_projection_matrix.m_ortho_scale 45 1 0.1 50
              * get_projection_matrix.m_ortho_trans 45 1 0.1 50)
            *ᵥ ![if cx then get_projection_matrix.r 45 1 0.1
                  else get_projection_matrix.l 45 1 0.1,
                 if cy then get_projection_matrix.t 45 0.1
                  else get_projection_matrix.b 45 0.1,
                 if cz then 0.1 else 50, 1]
            = ![if cx then 1 else -1, if cy then 1 else -1, if cz then 1 else -1, 1]) :=
  have htpos := get_projection_matrix.t_pos 45 0.1 (by norm_num) (by norm_num) (by norm_num)
  have hrpos := get_projection_matrix.r_pos 45 1 0.1 (by norm_num) (by norm_num)
    (by norm_num) (by norm_num)
  ortho_part_maps_box_into_cube 45 1 0.1 50 0 0 1 (by norm_num) (by norm_num) (by norm_num)
    (by norm_num) (by norm_num)
    (by simp only [get_projection_matrix.l]; linarith) (le_of_lt hrpos)
    (by simp only [get_projection_matrix.b]; linarith) (le_of_lt htpos)
    (by norm_num) (by norm_num)

/-- C4 (evaluation of the code at the driver's parameters): the centre of the near
plane in front of a camera looking down `-z`, `(0, 0, -0.1, 1)`, is sent by
`get_projection_matrix 45 1 0.1 50` to normalized device `z = -1501/499`, which is
not `-1`. -/
theorem near_plane_centre_ndc_z :
    perspective_divide (main.projection *ᵥ ![0, 0, -0.1, 1]) 2 = -1501 / 499
      ∧ perspective_divide (main.projection *ᵥ ![0, 0, -0.1, 1]) 2 ≠ -1 := by
  have h : perspective_divide (main.projection *ᵥ ![0, 0, -0.1, 1]) 2 = -1501 / 499 := by
    rw [main.projection,
      get_projection_matrix_ndc_z 45 1 0.1 50 0 0 (-0.1) (by norm_num) (by norm_num)]
    norm_num
  refine ⟨h, ?_⟩
  rw [h]
  norm_num

/-- C5 (evaluation of the code at the driver's scene): the driver's vertex
`(2, 0, -2)` seen from the eye `(0, 0, 5)` is the view-space point `(2, 0, -7)`,
which lies inside the frustum of the parameters `(45, 1, 0.1, 50)`; its normalized
device `z` is `-3607/3493 < -1`, so its normalized device coordinates are not in
the cube `[-1, 1]³`. -/
theorem driver_vertex_outside_ndc_cube :
    get_view_matrix main.eye_pos *ᵥ to_vec4 main.pos0 = ![2, 0, -7, 1]
      ∧ in_frustum 45 1 0.1 50 2 0 (-7)
      ∧ perspective_divide
          (main.projection *ᵥ (get_view_matrix main.eye_pos *ᵥ to_vec4 main.pos0)) 2
          = -3607 / 3493
      ∧ ¬ in_ndc_cube (perspective_divide
          (main.projection *ᵥ (get_view_matrix main.eye_pos *ᵥ to_vec4 main.pos0))) := by
  have hv : get_view_matrix main.eye_pos *ᵥ to_vec4 main.pos0 = ![2, 0, -7, 1] := by
    ext i
    fin_cases i <;>
      simp [get_view_matrix, get_view_matrix.translate, to_vec4, main.eye_pos, main.pos0,
        Matrix.mulVec, Matrix.dotProduct, Fin.sum_univ_four]
    norm_num
  have hz : perspective_divide (main.projection *ᵥ ![2, 0, -7, 1]) 2 = -3607 / 3493 := by
    rw [main.projection,
      get_projection_matrix_ndc_z 45 1 0.1 50 2 0 (-7) (by norm_num) (by norm_num)]
    norm_num
  obtain ⟨hlo, hhi⟩ := get_projection_matrix.half_radian_mem 45 (by norm_num) (by norm_num)
  have hT : (45 : ℝ) * 3.1415926 / 360 < Real.tan (45 * 3.1415926 / 360) :=
    Real.lt_tan hlo hhi
  refine ⟨hv, ⟨by norm_num, by norm_num, ?_, ?_⟩, ?_, ?_⟩
  · rw [abs_zero]
    nlinarith
  · rw [abs_of_pos (by norm_num : (0 : ℝ) < 2)]
    nlinarith
  · rw [hv]
    exact hz
  · intro hcube
    have h2 := (hcube 2).1
    rw [hv, hz] at h2
    norm_num at h2

/-- C11: the Z scale of `m_ortho_scale` is `2/(zNear - zFar) < 0`, and on the
positive-distance reading of its own matrix the projection reverses depth: for
`0 < fovY < 180`, `aspect > 0`, `0 < zNear < zFar` and all `x`, `y`, the point
`(x, y, zNear, 1)` goes to normalized device `z = +1` and `(x, y, zFar, 1)` to
normalized device `z = -1` after division by `w`. -/
theorem projection_reverses_positive_depth (fovY aspect zNear zFar x y : ℝ)
    (_h0 : 0 < fovY) (_h180 : fovY < 180) (_hasp : 0 < aspect) (hn : 0 < zNear)
    (hnf : zNear < zFar) :
    (get_projection_matrix.m_ortho_scale fovY aspect zNear zFar 2 2 = 2 / (zNear - zFar)
        ∧ 2 / (zNear - zFar) < 0)
      ∧ perspective_divide
          (get_projection_matrix fovY aspect zNear zFar *ᵥ ![x, y, zNear, 1]) 2 = 1
      ∧ perspective_divide
          (get_projection_matrix fovY aspect zNear zFar *ᵥ ![x, y, zFar, 1]) 2 = -1 := by
  have hf : 0 < zFar := lt_trans hn hnf
  have hd : zNear - zFar < 0 := sub_neg.mpr hnf
  have hd0 : zNear - zFar ≠ 0 := ne_of_lt hd
  have hd1 : zFar - zNear ≠ 0 := ne_of_gt (sub_pos.mpr hnf)
  refine ⟨⟨?_, div_neg_of_pos_of_neg (by norm_num) hd⟩, ?_, ?_⟩
  · simp [get_projection_matrix.m_ortho_scale, lit_two]
  · rw [get_projection_matrix_ndc_z fovY aspect zNear zFar x y zNear (ne_of_lt hnf)
      (ne_of_gt hn)]
    field_simp
    ring
  · rw [get_projection_matrix_ndc_z fovY aspect zNear zFar x y zFar (ne_of_lt hnf)
      (ne_of_gt hf)]
    field_simp
    ring

/-- Witness for C11: the driver's parameters `(45, 1, 0.1, 50)` and `x = 2`, `y = 0`. -/
theorem projection_reverses_positive_depth_witness :
    (get_projection_matrix.m_ortho_scale 45 1 0.1 50 2 2 = 2 / (0.1 - 50)
        ∧ (2 : ℝ) / (0.1 - 50) < 0)
      ∧ perspective_divide (get_projection_matrix 45 1 0.1 50 *ᵥ ![2, 0, 0.1, 1]) 2 = 1
      ∧ perspective_divide (get_projection_matrix 45 1 0.1 50 *ᵥ ![2, 0, 50, 1]) 2 = -1 :=
  projection_reverses_positive_depth 45 1 0.1 50 2 0 (by norm_num) (by norm_num)
    (by norm_num) (by norm_num) (by norm_num)

/-- C13: the axis-aligned builder is the special case of the arbitrary-axis
builder: for every angle `θ`, `get_model_matrix θ = get_rotation (0, 0, 1) θ`. -/
theorem get_model_matrix_eq_get_rotation_z (θ : ℝ) :
    get_model_matrix θ = get_rotation ![0, 0, 1] θ := by
  have hnorm : get_rotation.norm ![0, 0, 1] = 1 := by
    simp [get_rotation.norm]
  rw [get_rotation_entries]
  ext i j
  fin_cases i <;> fin_cases j <;>
    simp [get_model_matrix, get_model_matrix.radian, get_rotation.block, get_rotation.radian,
      get_rotation.N, get_rotation.n_axis, hnorm, Matrix.vecMulVec_apply, lit_zero, lit_one,
      Matrix.vecHead, Matrix.vecTail]

/-- C15: Z rotations compose additively in the angle: for all `α`, `β` in degrees,
`get_model_matrix α * get_model_matrix β = get_model_matrix (α + β)`, and any two
such matrices commute. -/
theorem get_model_matrix_mul (α β : ℝ) :
    get_model_matrix α * get_model_matrix β = get_model_matrix (α + β)
      ∧ get_model_matrix α * get_model_matrix β
          = get_model_matrix β * get_model_matrix α := by
  have hadd : ∀ a b : ℝ, get_model_matrix a * get_model_matrix b = get_model_matrix (a + b) := by
    intro a b
    have hr : get_model_matrix.radian (a + b)
        = get_model_matrix.radian a + get_model_matrix.radian b := by
      simp only [get_model_matrix.radian]
      ring
    ext i j
    fin_cases i <;> fin_cases j <;>
      simp [get_model_matrix, hr, Real.sin_add, Real.cos_add, Matrix.mul_apply,
        Fin.sum_univ_four, lit_zero, lit_one, Matrix.vecHead, Matrix.vecTail] <;> ring
  refine ⟨hadd α β, ?_⟩
  rw [hadd α β, hadd β α, add_comm]

/-- Scaling the axis by a positive factor scales `norm` by the same factor. -/
lemma get_rotation.norm_smul (a : Vector3f) (k : ℝ) (hk : 0 < k) :
    get_rotation.norm (k • a) = k * get_rotation.norm a := by
  simp only [get_rotation.norm, Pi.smul_apply, smul_eq_mul]
  have hsum : k * a 0 * (k * a 0) + k * a 1 * (k * a 1) + k * a 2 * (k * a 2)
      = k ^ 2 * (a 0 * a 0 + a 1 * a 1 + a 2 * a 2) := by ring
  rw [hsum, Real.sqrt_mul (sq_nonneg k), Real.sqrt_sq (le_of_lt hk)]

/-- Scaling the axis by a positive factor leaves `n_axis` unchanged. -/
lemma get_rotation.n_axis_smul (a : Vector3f) (k : ℝ) (hk : 0 < k) :
    get_rotation.n_axis (k • a) = get_rotation.n_axis a := by
  have hk0 : k ≠ 0 := ne_of_gt hk
  ext i
  fin_cases i <;>
    simp [get_rotation.n_axis, get_rotation.norm_smul a k hk, mul_div_mul_left _ _ hk0]

/-- C12: `get_rotation` depends only on the direction of the axis: for every
non-zero axis `a`, every scalar `k > 0` and every angle `θ`,
`get_rotation (k·a) θ = get_rotation a θ`. -/
theorem get_rotation_scale_invariant (a : Vector3f) (k θ : ℝ) (_ha : a ≠ 0) (hk : 0 < k) :
    get_rotation (k • a) θ = get_rotation a θ := by
  have hn := get_rotation.n_axis_smul a k hk
  simp only [get_rotation, get_rotation.block, get_rotation.N, hn]

/-- Witness for C12: the axis `(1, 2, 2)` scaled by `3`, turned by 30 degrees. -/
theorem get_rotation_scale_invariant_witness :
    (![1, 2, 2] : Vector3f) ≠ 0 ∧ (0 : ℝ) < 3
      ∧ get_rotation ((3 : ℝ) • ![1, 2, 2]) 30 = get_rotation ![1, 2, 2] 30 :=
  have hne : (![1, 2, 2] : Vector3f) ≠ 0 := fun h => by
    have := congrFun h 0
    simp at this
  ⟨hne, by norm_num, get_rotation_scale_invariant ![1, 2, 2] 3 30 hne (by norm_num)⟩

/-- The `x` and `y` components of a projected homogeneous point, for admissible
parameters: `x / (aspect·T)` and `y / T` with `T = tan(fovY·3.1415926/360)`. -/
lemma get_projection_matrix_mulVec_xy (fov asp n f x y z w : ℝ)
    (h0 : 0 < fov) (h180 : fov < 180) (hasp : 0 < asp) (hn : 0 < n) :
    (get_projection_matrix fov asp n f *ᵥ ![x, y, z, w]) 0
        = x / (asp * Real.tan (fov * 3.1415926 / 360))
      ∧ (get_projection_matrix fov asp n f *ᵥ ![x, y, z, w]) 1
        = y / Real.tan (fov * 3.1415926 / 360) := by
  have hT0 : Real.tan (fov * 3.1415926 / 360) ≠ 0 :=
    ne_of_gt (get_projection_matrix.tan_pos fov h0 h180)
  have ha0 : asp ≠ 0 := ne_of_gt hasp
  have hn0 : n ≠ 0 := ne_of_gt hn
  rw [get_projection_matrix_entries]
  constructor
  · simp only [get_projection_matrix.r, get_projection_matrix.l, get_projection_matrix.t,
      get_projection_matrix.half_radian, Matrix.mulVec, Matrix.dotProduct, Fin.sum_univ_four,
      Matrix.of_apply, Matrix.cons_val_zero, Matrix.cons_val_one, Matrix.head_cons,
      Matrix.cons_val_two, Matrix.tail_cons, Matrix.cons_val_three]
    field_simp
    ring
  · simp only [get_projection_matrix.b, get_projection_matrix.t,
      get_projection_matrix.half_radian, Matrix.mulVec, Matrix.dotProduct, Fin.sum_univ_four,
      Matrix.of_apply, Matrix.cons_val_zero, Matrix.cons_val_one, Matrix.head_cons,
      Matrix.cons_val_two, Matrix.tail_cons, Matrix.cons_val_three]
    field_simp
    ring

/-- C16: the projection's output `w` equals the input `z`, so points in front of a
camera looking down `-z` are mirrored: with `T = tan(fovY·3.1415926/360)`, for
`0 < fovY < 180`, `aspect > 0`, `0 < zNear < zFar` and every view-space point
`(x, y, z)` with `z < 0`, the normalized device coordinates are
`x_ndc = x/(aspect·T·z)` and `y_ndc = y/(T·z)`; `x_ndc` has the opposite sign to
`x` and `y_ndc` the opposite sign to `y`. -/
theorem projection_mirrors_xy (fovY aspect zNear zFar x y z : ℝ)
    (h0 : 0 < fovY) (h180 : fovY < 180) (hasp : 0 < aspect) (hn : 0 < zNear)
    (_hnf : zNear < zFar) (hz : z < 0) :
    (get_projection_matrix fovY aspect zNear zFar *ᵥ ![x, y, z, 1]) 3 = z
      ∧ perspective_divide (get_projection_matrix fovY aspect zNear zFar *ᵥ ![x, y, z, 1]) 0
          = x / (aspect * Real.tan (fovY * 3.1415926 / 360) * z)
      ∧ perspective_divide (get_projection_matrix fovY aspect zNear zFar *ᵥ ![x, y, z, 1]) 1
          = y / (Real.tan (fovY * 3.1415926 / 360) * z)
      ∧ (0 < x → perspective_divide
            (get_projection_matrix fovY aspect zNear zFar *ᵥ ![x, y, z, 1]) 0 < 0)
      ∧ (x < 0 → 0 < perspective_divide
            (get_projection_matrix fovY aspect zNear zFar *ᵥ ![x, y, z, 1]) 0)
      ∧ (0 < y → perspective_divide
            (get_projection_matrix fovY aspect zNear zFar *ᵥ ![x, y, z, 1]) 1 < 0)
      ∧ (y < 0 → 0 < perspective_divide
            (get_projection_matrix fovY aspect zNear zFar *ᵥ ![x, y, z, 1]) 1) := by
  have hT := get_projection_matrix.tan_pos fovY h0 h180
  obtain ⟨hx0, hy0⟩ :=
    get_projection_matrix_mulVec_xy fovY aspect zNear zFar x y z 1 h0 h180 hasp hn
  have hw := (get_projection_matrix_mulVec_zw fovY aspect zNear zFar x y z 1).2
  have hxn : perspective_divide
      (get_projection_matrix fovY aspect zNear zFar *ᵥ ![x, y, z, 1]) 0
      = x / (aspect * Real.tan (fovY * 3.1415926 / 360) * z) := by
    simp only [perspective_divide, Matrix.cons_val_zero]
    rw [hx0, hw, div_div]
  have hyn : perspective_divide
      (get_projection_matrix fovY aspect zNear zFar *ᵥ ![x, y, z, 1]) 1
      = y / (Real.tan (fovY * 3.1415926 / 360) * z) := by
    simp only [perspective_divide, Matrix.cons_val_one, Matrix.head_cons]
    rw [hy0, hw, div_div]
  have hdx : aspect * Real.tan (fovY * 3.1415926 / 360) * z < 0 :=
    mul_neg_of_pos_of_neg (mul_pos hasp hT) hz
  have hdy : Real.tan (fovY * 3.1415926 / 360) * z < 0 := mul_neg_of_pos_of_neg hT hz
  refine ⟨hw, hxn, hyn, ?_, ?_, ?_, ?_⟩
  · intro hx
    rw [hxn]
    exact div_neg_of_pos_of_neg hx hdx
  · intro hx
    rw [hxn]
    exact div_pos_of_neg_of_neg hx hdx
  · intro hy
    rw [hyn]
    exact div_neg_of_pos_of_neg hy hdy
  · intro hy
    rw [hyn]
    exact div_pos_of_neg_of_neg hy hdy

/-- Witness for C16: the driver's vertex `(2, 0, -2)` seen from the eye, i.e. the
view-space point `(2, 0, -7)`, with the driver's parameters `(45, 1, 0.1, 50)`. -/
theorem projection_mirrors_xy_witness :
    perspective_divide (get_projection_matrix 45 1 0.1 50 *ᵥ ![2, 0, -7, 1]) 0 < 0 :=
  (projection_mirrors_xy 45 1 0.1 50 2 0 (-7) (by norm_num) (by norm_num) (by norm_num)
    (by norm_num) (by norm_num) (by norm_num)).2.2.2.1 (by norm_num)

/-- Rodrigues' block of a non-zero axis times its transpose is the identity. -/
lemma get_rotation.block_mul_transpose (a : Vector3f) (θ : ℝ) (ha : a ≠ 0) :
    get_rotation.block a θ * (get_rotation.block a θ)ᵀ = 1 := by
  have hu := get_rotation.n_axis_unit a ha
  have hsc := Real.sin_sq_add_cos_sq (get_rotation.radian θ)
  ext i j
  fin_cases i <;> fin_cases j
  · simp [get_rotation.block, get_rotation.N, Matrix.mul_apply, Fin.sum_univ_three,
      Matrix.vecMulVec_apply, lit_zero, Matrix.vecHead, Matrix.vecTail]
    linear_combination
      (Real.sin (get_rotation.radian θ) ^ 2 * 1
        + (1 - Real.cos (get_rotation.radian θ)) ^ 2
          * get_rotation.n_axis a 0 * get_rotation.n_axis a 0) * hu
      + (1 - get_rotation.n_axis a 0 * get_rotation.n_axis a 0) * hsc
  · simp [get_rotation.block, get_rotation.N, Matrix.mul_apply, Fin.sum_univ_three,
      Matrix.vecMulVec_apply, lit_zero, Matrix.vecHead, Matrix.vecTail]
    linear_combination
      (Real.sin (get_rotation.radian θ) ^ 2 * 0
        + (1 - Real.cos (get_rotation.radian θ)) ^ 2
          * get_rotation.n_axis a 0 * get_rotation.n_axis a 1) * hu
      + (0 - get_rotation.n_axis a 0 * get_rotation.n_axis a 1) * hsc
  · simp [get_rotation.block, get_rotation.N, Matrix.mul_apply, Fin.sum_univ_three,
      Matrix.vecMulVec_apply, lit_zero, Matrix.vecHead, Matrix.vecTail]
    linear_combination
      (Real.sin (get_rotation.radian θ) ^ 2 * 0
        + (1 - Real.cos (get_rotation.radian θ)) ^ 2
          * get_rotation.n_axis a 0 * get_rotation.n_axis a 2) * hu
      + (0 - get_rotation.n_axis a 0 * get_rotation.n_axis a 2) * hsc
  · simp [get_rotation.block, get_rotation.N, Matrix.mul_apply, Fin.sum_univ_three,
      Matrix.vecMulVec_apply, lit_zero, Matrix.vecHead, Matrix.vecTail]
    linear_combination
      (Real.sin (get_rotation.radian θ) ^ 2 * 0
        + (1 - Real.cos (get_rotation.radian θ)) ^ 2
          * get_rotation.n_axis a 1 * get_rotation.n_axis a 0) * hu
      + (0 - get_rotation.n_axis a 1 * get_rotation.n_axis a 0) * hsc
  · simp [get_rotation.block, get_rotation.N, Matrix.mul_apply, Fin.sum_univ_three,
      Matrix.vecMulVec_apply, lit_zero, Matrix.vecHead, Matrix.vecTail]
    linear_combination
      (Real.sin (get_rotation.radian θ) ^ 2 * 1
        + (1 - Real.cos (get_rotation.radian θ)) ^ 2
          * get_rotation.n_axis a 1 * get_rotation.n_axis a 1) * hu
      + (1 - get_rotation.n_axis a 1 * get_rotation.n_axis a 1) * hsc
  · simp [get_rotation.block, get_rotation.N, Matrix.mul_apply, Fin.sum_univ_three,
      Matrix.vecMulVec_apply, lit_zero, Matrix.vecHead, Matrix.vecTail]
    linear_combination
      (Real.sin (get_rotation.radian θ) ^ 2 * 0
        + (1 - Real.cos (get_rotation.radian θ)) ^ 2
          * get_rotation.n_axis a 1 * get_rotation.n_axis a 2) * hu
      + (0 - get_rotation.n_axis a 1 * get_rotation.n_axis a 2) * hsc
  · simp [get_rotation.block, get_rotation.N, Matrix.mul_apply, Fin.sum_univ_three,
      Matrix.vecMulVec_apply, lit_zero, Matrix.vecHead, Matrix.vecTail]
    linear_combination
      (Real.sin (get_rotation.radian θ) ^ 2 * 0
        + (1 - Real.cos (get_rotation.radian θ)) ^ 2
          * get_rotation.n_axis a 2 * get_rotation.n_axis a 0) * hu
      + (0 - get_rotation.n_axis a 2 * get_rotation.n_axis a 0) * hsc
  · simp [get_rotation.block, get_rotation.N, Matrix.mul_apply, Fin.sum_univ_three,
      Matrix.vecMulVec_apply, lit_zero, Matrix.vecHead, Matrix.vecTail]
    linear_combination
      (Real.sin (get_rotation.radian θ) ^ 2 * 0
        + (1 - Real.cos (get_rotation.radian θ)) ^ 2
          * get_rotation.n_axis a 2 * get_rotation.n_axis a 1) * hu
      + (0 - get_rotation.n_axis a 2 * get_rotation.n_axis a 1) * hsc
  · simp [get_rotation.block, get_rotation.N, Matrix.mul_apply, Fin.sum_univ_three,
      Matrix.vecMulVec_apply, lit_zero, Matrix.vecHead, Matrix.vecTail]
    linear_combination
      (Real.sin (get_rotation.radian θ) ^ 2 * 1
        + (1 - Real.cos (get_rotation.radian θ)) ^ 2
          * get_rotation.n_axis a 2 * get_rotation.n_axis a 2) * hu
      + (1 - get_rotation.n_axis a 2 * get_rotation.n_axis a 2) * hsc

/-- C14: for every non-zero axis `a` and every angle `θ`, the matrix
`M = get_rotation a θ` is orthogonal, `M·Mᵗ = I`, so it preserves the dot products
(and hence the lengths) of the vectors it transforms, and its fourth row and
fourth column are `(0, 0, 0, 1)`. -/
theorem get_rotation_orthogonal (a : Vector3f) (θ : ℝ) (ha : a ≠ 0) :
    get_rotation a θ * (get_rotation a θ)ᵀ = 1
      ∧ (∀ v w : Vector4f,
          (get_rotation a θ *ᵥ v) ⬝ᵥ (get_rotation a θ *ᵥ w) = v ⬝ᵥ w)
      ∧ (fun j => get_rotation a θ 3 j) = ![0, 0, 0, 1]
      ∧ (fun i => get_rotation a θ i 3) = ![0, 0, 0, 1] := by
  have hB := get_rotation.block_mul_transpose a θ ha
  have e : ∀ i j : Fin 3,
      get_rotation.block a θ i 0 * get_rotation.block a θ j 0
        + get_rotation.block a θ i 1 * get_rotation.block a θ j 1
        + get_rotation.block a θ i 2 * get_rotation.block a θ j 2 = (1 : Matrix3f) i j := by
    intro i j
    have h := congrFun (congrFun hB i) j
    simpa [Matrix.mul_apply, Fin.sum_univ_three] using h
  have e00 := e 0 0
  have e01 := e 0 1
  have e02 := e 0 2
  have e10 := e 1 0
  have e11 := e 1 1
  have e12 := e 1 2
  have e20 := e 2 0
  have e21 := e 2 1
  have e22 := e 2 2
  simp only [Matrix.one_apply_eq, ne_eq, not_false_eq_true, Matrix.one_apply_ne, zero_ne_one,
    one_ne_zero, Fin.reduceEq] at e00 e01 e02 e10 e11 e12 e20 e21 e22
  have hM : get_rotation a θ * (get_rotation a θ)ᵀ = 1 := by
    rw [get_rotation_entries]
    ext i j
    fin_cases i <;> fin_cases j <;>
      simp [Matrix.mul_apply, Fin.sum_univ_four, Matrix.vecHead, Matrix.vecTail] <;>
      assumption
  have hM2 : (get_rotation a θ)ᵀ * get_rotation a θ = 1 := mul_eq_one_comm.mp hM
  refine ⟨hM, ?_, ?_, ?_⟩
  · intro v w
    rw [Matrix.dotProduct_mulVec, ← Matrix.mulVec_transpose, Matrix.mulVec_mulVec, hM2,
      Matrix.one_mulVec]
  · rw [get_rotation_entries]
    ext j
    fin_cases j <;> simp
  · rw [get_rotation_entries]
    ext i
    fin_cases i <;> simp

/-- Witness for C14: the axis `(1, 2, 2)` turned by 30 degrees. -/
theorem get_rotation_orthogonal_witness :
    (![1, 2, 2] : Vector3f) ≠ 0
      ∧ get_rotation ![1, 2, 2] 30 * (get_rotation ![1, 2, 2] 30)ᵀ = 1
      ∧ (∀ v w : Vector4f,
          (get_rotation ![1, 2, 2] 30 *ᵥ v) ⬝ᵥ (get_rotation ![1, 2, 2] 30 *ᵥ w) = v ⬝ᵥ w)
      ∧ (fun j => get_rotation ![1, 2, 2] 30 3 j) = ![0, 0, 0, 1]
      ∧ (fun i => get_rotation ![1, 2, 2] 30 i 3) = ![0, 0, 0, 1] :=
  have hne : (![1, 2, 2] : Vector3f) ≠ 0 := fun h => by
    have := congrFun h 0
    simp at this
  ⟨hne, get_rotation_orthogonal ![1, 2, 2] 30 hne⟩

end Assignment02
